import Mathlib

/-!
Verification development for the contour-geometry kernel of a
py-eddy-tracker distribution (Cython module: circle fitting, winding-number
point-in-polygon test, haversine distances, nearest-contour lookup over a
CSR-style multi-level contour collection).

Machine doubles are modelled by exact rationals (`ℚ`) where the code is pure
field arithmetic with comparisons, by `ℝ` where a square root occurs, and the
transcendental functions sin / cos / atan2 / sqrt of the haversine code are
abstracted as parameters, so that statements about the haversine formulas hold
for every interpretation of them.  Unsigned C integers are modelled by `ℕ`
(subtraction is truncated; every theorem that depends on a subtraction only
uses it where the source cannot underflow).  Flat C arrays are modelled by
lists read with `List.getD` (out-of-range reads, which the source leaves
undefined under `boundscheck(False)`, read the default).
-/

namespace EddyKernel

/-! ### Polygon containment: `is_left` and `winding_number_poly` -/

/-- Embedding of `is_left` (source lines 110-131): strict sign test of the
2D cross product; true iff the test point is strictly left of the directed
line through `(x0, y0)`, `(x1, y1)`. -/
def is_left (x0 y0 x1 y1 xt yt : ℚ) : Bool :=
  decide ((x1 - x0) * (yt - y0) - (xt - x0) * (y1 - y0) > 0)

/-- Contribution of one directed edge `p → q` to the winding number of the
test point `(xt, yt)`, exactly the branch structure of the loop body of
`winding_number_poly` (source lines 162-179). -/
def wn_edge (xt yt : ℚ) (p q : ℚ × ℚ) : ℤ :=
  if p.2 ≤ yt then
    if q.2 > yt then (if is_left p.1 p.2 q.1 q.2 xt yt then 1 else 0) else 0
  else
    if q.2 ≤ yt then (if is_left p.1 p.2 q.1 q.2 xt yt then 0 else -1) else 0

/-- Embedding of `winding_number_poly` (source lines 136-180): sum of the
edge contributions over all edges, the successor of the last vertex being
vertex `0` (the source's `if i_elt + 1 == nb_elt` branch). -/
def winding_number_poly (xt yt : ℚ) (poly : List (ℚ × ℚ)) : ℤ :=
  ∑ i ∈ Finset.range poly.length,
    wn_edge xt yt (poly.getD i (0, 0))
      (if i + 1 = poly.length then poly.getD 0 (0, 0) else poly.getD (i + 1) (0, 0))

/-! ### Shoelace areas inside `fit_circle_c` -/

/-- Embedding of the polygon-area accumulation of `fit_circle_c`
(source lines 91-99): the shoelace sum runs over `0 ≤ i < nb_elt - 1`
only, i.e. over consecutive *stored* vertex pairs. -/
def shoelace_open (x y : List ℚ) : ℚ :=
  ∑ i ∈ Finset.range (x.length - 1),
    (x.getD i 0 * y.getD (i + 1) 0 - x.getD (i + 1) 0 * y.getD i 0)

/-- Embedding of `p_area = abs(p_area) * .5` (source line 99). -/
def p_area (x y : List ℚ) : ℚ :=
  |shoelace_open x y| * (1 / 2)

/-- Full cyclic shoelace sum, as the specification describes it: every edge
of the ring including the implicit closing edge from the last stored vertex
back to the first. -/
def shoelace_cyclic (x y : List ℚ) : ℚ :=
  ∑ i ∈ Finset.range x.length,
    (x.getD i 0 * y.getD ((i + 1) % x.length) 0 -
      x.getD ((i + 1) % x.length) 0 * y.getD i 0)

/-- Area per the specification's words: absolute value of the full cyclic
shoelace sum times one half. -/
def cyclic_area (x y : List ℚ) : ℚ :=
  |shoelace_cyclic x y| * (1 / 2)

/-! ### Contour index: CSR-style nearest-contour lookup -/

/-- Embedding of `dist_array_size` (source lines 248-262): from a level's
first contour index `li` and its contour count `nb_c`, returns
`(i_start, i_end, i_contour, i_contour + nb_pts)` where `nb_pts` sums the
per-contour point counts over the level's contour range and `i_contour` is
the global point offset of the level's first contour. -/
def dist_array_size (li nb_c : ℕ) (nb_pt_per_c c_i : List ℕ) : ℕ × ℕ × ℕ × ℕ :=
  let i_start := li
  let i_end := i_start + nb_c
  let nb_pts := ∑ i ∈ Finset.Ico i_start i_end, nb_pt_per_c.getD i 0
  let i_contour := c_i.getD i_start 0
  (i_start, i_end, i_contour, i_contour + nb_pts)

/-- Embedding of `nearest_contour_index` (source lines 312-330): linear scan
of the squared Euclidean distances over the half-open index range
`[s, e)`, keeping the first minimiser (strict `<` update), returning its
offset relative to `s`.  The scan is seeded with index `s` exactly as the
source seeds `i_ref = start` before the loop. -/
def nearest_contour_index (x_value y_value : List ℚ) (xpt ypt : ℚ) (s e : ℕ) : ℕ :=
  let d : ℕ → ℚ := fun i =>
    (x_value.getD i 0 - xpt) ^ 2 + (y_value.getD i 0 - ypt) ^ 2
  let p := (List.range' s (e - s)).foldl
    (fun acc i => if d i < acc.2 then (i, d i) else acc) (s, d s)
  p.1 - s

/-- Embedding of the contour-ownership scan of `index_from_nearest_path`
(source lines 303-307): the first contour index `i` in
`[main_start, main_stop)` whose relative starting offset exceeds
`nearesti` yields `i - 1 - main_start`; if none does, the loop variable is
left at `main_stop` and the fall-through returns
`main_stop - 1 - main_start`. -/
def ownership_scan (ifp : List ℕ) (main_start main_stop nearesti : ℕ) : ℕ :=
  match (List.range' main_start (main_stop - main_start)).find?
      (fun i => decide (ifp.getD i 0 - ifp.getD main_start 0 > nearesti)) with
  | some i => i - 1 - main_start
  | none => main_stop - 1 - main_start

/-- Embedding of `index_from_nearest_path` (source lines 267-307).  Note the
source passes `&y_value[0]` for BOTH coordinate arrays of
`nearest_contour_index` (lines 294-301); the embedding reproduces that
faithfully, leaving `x_value` unused.  Returns `none` (Python `None`) when
the level has no contour. -/
def index_from_nearest_path (level_index : ℕ)
    (l_i nb_c_per_l nb_pt_per_c indices_of_first_pts : List ℕ)
    (x_value y_value : List ℚ) (xpt ypt : ℚ) : Option ℕ :=
  let nb_contour := nb_c_per_l.getD level_index 0
  if nb_contour = 0 then none
  else
    let r := dist_array_size (l_i.getD level_index 0) nb_contour
      nb_pt_per_c indices_of_first_pts
    let nearesti := nearest_contour_index y_value y_value xpt ypt r.2.2.1 r.2.2.2
    some (ownership_scan indices_of_first_pts r.1 r.2.1 nearesti)

/-! ### Circle fit (`fit_circle_c`): scaling step and outside-circle projection -/

/-- Embedding of the mean computation of `fit_circle_c` (source lines 39-46):
the coordinate sum divided by the point count. -/
noncomputable def coord_mean (v : List ℝ) : ℝ :=
  v.sum / v.length

/-- Embedding of `norme = (x_vec - x_mean) ** 2 + (y_vec - y_mean) ** 2`
(source line 48), elementwise over the two coordinate lists. -/
noncomputable def norme (x y : List ℝ) : List ℝ :=
  List.zipWith (fun a b => (a - coord_mean x) ^ 2 + (b - coord_mean y) ^ 2) x y

/-- Maximum of a nonempty list, as numpy's `.max()` (source line 49); seeded
with the head so that it agrees with numpy on every nonempty list. -/
noncomputable def list_max (l : List ℝ) : ℝ :=
  l.foldl max (l.headD 0)

/-- Embedding of `norme_max = norme.max()` (source line 49). -/
noncomputable def norme_max (x y : List ℝ) : ℝ :=
  list_max (norme x y)

/-- Embedding of `scale = norme_max ** .5` (source line 50), the divisor of
the least-squares row construction `2. * (x_vec[i] - x_mean) / scale`
(source lines 56-57).  No explicit degeneracy check precedes its use; a
zero value is caught only by the zero check the compiler inserts into the
float division of the row construction itself.  The division is therefore
not modelled here. -/
noncomputable def fc_scale (x y : List ℝ) : ℝ :=
  Real.sqrt (norme_max x y)

/-- Embedding of `dist_poly` (source line 79): Euclidean distance from the
fitted center to a polygon vertex. -/
noncomputable def dist_poly (cx cy xv yv : ℝ) : ℝ :=
  Real.sqrt ((xv - cx) ^ 2 + (yv - cy) ^ 2)

/-- The divisor `(center_y - y_vec[i_elt])` of the outside-circle projection
(source line 84). -/
def p_inon_divisor (cy yv : ℝ) : ℝ :=
  cy - yv

/-- Embedding of the outside-circle projection step of `fit_circle_c`
(source lines 77-87): a vertex strictly outside the fitted circle
(`dist_poly > radius`) is replaced by the projected point, every other
vertex is kept; the projected x-coordinate divides by `p_inon_divisor`. -/
noncomputable def p_inon_point (cx cy r xv yv : ℝ) : ℝ × ℝ :=
  if r < dist_poly cx cy xv yv then
    let py := cy + r * (yv - cy) / dist_poly cx cy xv yv
    (cx - (cx - xv) * (cy - py) / p_inon_divisor cy yv, py)
  else (xv, yv)

/-! ### Haversine distances (`distance`, `distance_vector`, `distance_matrix`)

The transcendental functions and the conversion constant `D2R` (source line
14, the 64-bit floating-point value of `pi / 180`) are abstracted as
parameters, so every statement below holds for each interpretation of
them — in particular for the machine ones. -/

/-- The trigonometric primitives the haversine code calls: `sin`, `cos`,
`atan2`, and the square root (`** 0.5`). -/
structure TrigOps (α : Type) where
  sin : α → α
  cos : α → α
  atan2 : α → α → α
  sqrt : α → α

/-- The conversion constant of the source, line 14:
`D2R = 0.017453292519943295`, the machine-double value of `pi / 180`,
as an exact rational. -/
def D2R : ℚ := 0.017453292519943295

/-- Embedding of the scalar `distance` (source lines 184-197), operation
for operation in the source's order. -/
def distance {α : Type} [LinearOrderedField α] (ops : TrigOps α) (d2r : α)
    (lon0 lat0 lon1 lat1 : α) : α :=
  let sin_dlat := ops.sin ((lat1 - lat0) * 0.5 * d2r)
  let sin_dlon := ops.sin ((lon1 - lon0) * 0.5 * d2r)
  let cos_lat1 := ops.cos (lat0 * d2r)
  let cos_lat2 := ops.cos (lat1 * d2r)
  let a_val := sin_dlon ^ 2 * cos_lat1 * cos_lat2 + sin_dlat ^ 2
  6371315.0 * 2 * ops.atan2 (ops.sqrt a_val) (ops.sqrt (1 - a_val))

/-- The haversine formula exactly as the specification words it:
`a = sin²((lat1−lat0)·D2R/2) + cos(lat0·D2R)·cos(lat1·D2R)·sin²((lon1−lon0)·D2R/2)`,
`distance = 2·R·atan2(√a, √(1−a))` with `R = 6371315.0`.  Written from the
specification, to be compared with `distance`. -/
def distance_spec {α : Type} [LinearOrderedField α] (ops : TrigOps α) (d2r : α)
    (lon0 lat0 lon1 lat1 : α) : α :=
  let a := ops.sin ((lat1 - lat0) * d2r / 2) ^ 2 +
    ops.cos (lat0 * d2r) * ops.cos (lat1 * d2r) * ops.sin ((lon1 - lon0) * d2r / 2) ^ 2
  2 * 6371315.0 * ops.atan2 (ops.sqrt a) (ops.sqrt (1 - a))

/-- Embedding of `distance_vector` (source lines 202-219): the output slot
`i` is written for every `0 ≤ i < lon0.length`, from the same formula as
the scalar `distance`, read at position `i` of each input array. -/
def distance_vector {α : Type} [LinearOrderedField α] (ops : TrigOps α) (d2r : α)
    (lon0 lat0 lon1 lat1 : List α) : List α :=
  (List.range lon0.length).map fun i =>
    let sin_dlat := ops.sin ((lat1.getD i 0 - lat0.getD i 0) * 0.5 * d2r)
    let sin_dlon := ops.sin ((lon1.getD i 0 - lon0.getD i 0) * 0.5 * d2r)
    let cos_lat1 := ops.cos (lat0.getD i 0 * d2r)
    let cos_lat2 := ops.cos (lat1.getD i 0 * d2r)
    let a_val := sin_dlon ^ 2 * cos_lat1 * cos_lat2 + sin_dlat ^ 2
    6371315.0 * 2 * ops.atan2 (ops.sqrt a_val) (ops.sqrt (1 - a_val))

/-- Embedding of `distance_matrix` (source lines 224-243): slot `(i, j)` is
written for every `0 ≤ i < lon0.length`, `0 ≤ j < lon1.length`, pairing
position `i` of `lon0`/`lat0` with position `j` of `lon1`/`lat1`. -/
def distance_matrix {α : Type} [LinearOrderedField α] (ops : TrigOps α) (d2r : α)
    (lon0 lat0 lon1 lat1 : List α) : List (List α) :=
  (List.range lon0.length).map fun i =>
    (List.range lon1.length).map fun j =>
      let sin_dlat := ops.sin ((lat1.getD j 0 - lat0.getD i 0) * 0.5 * d2r)
      let sin_dlon := ops.sin ((lon1.getD j 0 - lon0.getD i 0) * 0.5 * d2r)
      let cos_lat1 := ops.cos (lat0.getD i 0 * d2r)
      let cos_lat2 := ops.cos (lat1.getD j 0 * d2r)
      let a_val := sin_dlon ^ 2 * cos_lat1 * cos_lat2 + sin_dlat ^ 2
      6371315.0 * 2 * ops.atan2 (ops.sqrt a_val) (ops.sqrt (1 - a_val))

/-! ### Helper lemmas -/

-- Summing any integer-valued function of `(i + k) % n` over `i < n` is a
-- cyclic re-indexing of the plain sum.
theorem sum_range_mod_shift (n k : ℕ) (f : ℕ → ℤ) :
    ∑ i ∈ Finset.range n, f ((i + k) % n) = ∑ i ∈ Finset.range n, f i := by
  cases n with
  | zero => simp
  | succ m =>
    rw [← Fin.sum_univ_eq_sum_range (fun i => f ((i + k) % (m + 1))) (m + 1),
      ← Fin.sum_univ_eq_sum_range f (m + 1)]
    have key : ∀ i : Fin (m + 1), (i.val + k) % (m + 1) = (i + (k : Fin (m + 1))).val := by
      intro i
      rw [Fin.val_add, Fin.val_natCast]
      rw [add_comm i.val (k % (m + 1)), Nat.mod_add_mod, add_comm k i.val]
    calc ∑ i : Fin (m + 1), f ((i.val + k) % (m + 1))
        = ∑ i : Fin (m + 1), f ((i + (k : Fin (m + 1))).val) := by
          apply Finset.sum_congr rfl
          intro i _
          rw [key]
      _ = ∑ i : Fin (m + 1), f i.val := by
          exact Fintype.sum_equiv (Equiv.addRight (k : Fin (m + 1)))
            (fun i => f ((i + (k : Fin (m + 1))).val)) (fun i => f i.val) (fun i => rfl)

-- Reading a rotated list at an in-range position reads the original list at
-- the cyclically shifted position.
theorem getD_rotate {α : Type} (l : List α) (k j : ℕ) (d : α) (h : j < l.length) :
    (l.rotate k).getD j d = l.getD ((j + k) % l.length) d := by
  rw [List.getD_eq_getElem?_getD, List.getD_eq_getElem?_getD, List.getElem?_rotate h]

-- The source's successor branch (`if i_elt + 1 == nb_elt` then vertex 0)
-- agrees with indexing modulo the vertex count, which eases re-indexing.
theorem winding_number_poly_eq_sum_mod (xt yt : ℚ) (l : List (ℚ × ℚ)) :
    winding_number_poly xt yt l = ∑ i ∈ Finset.range l.length,
      wn_edge xt yt (l.getD (i % l.length) (0, 0)) (l.getD ((i + 1) % l.length) (0, 0)) := by
  unfold winding_number_poly
  apply Finset.sum_congr rfl
  intro i hi
  rw [Finset.mem_range] at hi
  congr 2
  · rw [Nat.mod_eq_of_lt hi]
  · by_cases h : i + 1 = l.length
    · rw [if_pos h, h, Nat.mod_self]
    · rw [if_neg h, Nat.mod_eq_of_lt (by omega)]

-- The ownership scan over `[ms, ms + nb)` never yields more than `nb - 1`:
-- an early return at position `i` yields `i - 1 - ms` and the fall-through
-- yields `nb - 1`.
theorem ownership_scan_lt (ifp : List ℕ) (ms nb k : ℕ) (hnb : 1 ≤ nb) :
    ownership_scan ifp ms (ms + nb) k ≤ nb - 1 := by
  unfold ownership_scan
  cases hfind : (List.range' ms (ms + nb - ms)).find?
      (fun i => decide (ifp.getD i 0 - ifp.getD ms 0 > k)) with
  | none => simp only []; omega
  | some i =>
    have hmem := List.mem_of_find?_eq_some hfind
    rw [List.mem_range'_1] at hmem
    simp only []
    omega

/-! ### Claim theorems -/

/-- C1 (code evaluation at the failing input): `index_from_nearest_path`
passes `y_value` for BOTH coordinate arrays of `nearest_contour_index`, so
on the collection with one level holding two one-point contours at
`(0, 1)` and `(100, 0)` and target `(0, 0)` it returns contour `1`,
although the nearest point under the claimed metric
`(x − target_x)² + (y − target_y)²` is the point of contour `0`: the
correctly applied `nearest_contour_index` returns offset `0`, which the
ownership scan maps to contour `0`. -/
theorem index_from_nearest_path_mixes_y_for_x :
    index_from_nearest_path 0 [0] [2] [1, 1] [0, 1] [0, 100] [1, 0] 0 0 = some 1 ∧
    nearest_contour_index [0, 100] [1, 0] 0 0 0 2 = 0 ∧
    ownership_scan [0, 1] 0 2 0 = 0 := by
  refine ⟨?_, ?_, ?_⟩
  · norm_num [index_from_nearest_path, nearest_contour_index, ownership_scan, dist_array_size,
      List.range', List.find?]
  · norm_num [nearest_contour_index, List.range']
  · decide

/-- C2: the outside-circle projection step of `fit_circle_c` divides by
`center_y − y_vec[i]` with no guard.  At center `(0, 0)`, radius `1` and
vertex `(2, 0)` the vertex is strictly outside the fitted circle (distance
`2 > 1`, so the only branch condition sends it through the projection), the
divisor is exactly `0`, and the projected point degenerates (under
total-division semantics the vertex collapses to the center instead of
landing on the circle). -/
theorem fit_circle_projection_division_by_zero :
    1 < dist_poly 0 0 2 0 ∧ p_inon_divisor 0 0 = 0 ∧ p_inon_point 0 0 1 2 0 = (0, 0) := by
  have hd : dist_poly 0 0 2 0 = 2 := by
    rw [dist_poly, show ((2 : ℝ) - 0) ^ 2 + (0 - 0) ^ 2 = 2 ^ 2 by norm_num,
      Real.sqrt_sq (by norm_num)]
  refine ⟨by rw [hd]; norm_num, by norm_num [p_inon_divisor], ?_⟩
  rw [p_inon_point, if_pos (by rw [hd]; norm_num)]
  simp only [hd, p_inon_divisor]
  norm_num

/-- C3 (counterexample): on the open triangle `x = [0, 1, 2]`,
`y = [1, 0, 2]` (first vertex not duplicated as the last), the area
computed by `fit_circle_c` is `1/2`, while the full cyclic shoelace area of
the claim is `3/2`: the loop `for i_elt < nb_elt - 1` omits the closing
edge. -/
theorem fit_circle_area_misses_closing_edge :
    p_area [0, 1, 2] [1, 0, 2] = 1 / 2 ∧ cyclic_area [0, 1, 2] [1, 0, 2] = 3 / 2 ∧
    p_area [0, 1, 2] [1, 0, 2] ≠ cyclic_area [0, 1, 2] [1, 0, 2] := by
  have h1 : p_area [0, 1, 2] [1, 0, 2] = 1 / 2 := by
    norm_num [p_area, shoelace_open, Finset.sum_range_succ]
  have h2 : cyclic_area [0, 1, 2] [1, 0, 2] = 3 / 2 := by
    norm_num [cyclic_area, shoelace_cyclic, Finset.sum_range_succ]
  refine ⟨h1, h2, ?_⟩
  rw [h1, h2]
  norm_num

/-- C3 (amended): the area computed by `fit_circle_c` sums the shoelace
terms of consecutive STORED vertex pairs only (indices `0 … n − 2`); it
equals the full cyclic shoelace area exactly when the ring is stored with
its first point duplicated as its last, for then the closing term
vanishes. -/
theorem p_area_eq_cyclic_area_of_first_eq_last (x y : List ℚ)
    (hxy : y.length = x.length) (hn : 1 ≤ x.length)
    (hx : x.getD (x.length - 1) 0 = x.getD 0 0)
    (hy : y.getD (y.length - 1) 0 = y.getD 0 0) :
    p_area x y = cyclic_area x y := by
  obtain ⟨m, hm⟩ : ∃ m, x.length = m + 1 := ⟨x.length - 1, by omega⟩
  have key : shoelace_open x y = shoelace_cyclic x y := by
    rw [shoelace_open, shoelace_cyclic, hm]
    rw [show m + 1 - 1 = m by omega, Finset.sum_range_succ]
    have hlast : x.getD m 0 * y.getD ((m + 1) % (m + 1)) 0 -
        x.getD ((m + 1) % (m + 1)) 0 * y.getD m 0 = 0 := by
      rw [Nat.mod_self]
      have hx' : x.getD m 0 = x.getD 0 0 := by
        rw [← hx, hm, show m + 1 - 1 = m by omega]
      have hy' : y.getD m 0 = y.getD 0 0 := by
        rw [← hy, hxy, hm, show m + 1 - 1 = m by omega]
      rw [hx', hy']
      ring
    rw [hlast, add_zero]
    apply Finset.sum_congr rfl
    intro i hi
    rw [Finset.mem_range] at hi
    rw [Nat.mod_eq_of_lt (by omega)]
  rw [p_area, cyclic_area, key]

/-- Witness for the amended C3 theorem: the unit square stored with its
first corner duplicated as the last point. -/
theorem p_area_eq_cyclic_area_witness :
    ([0, 0, 1, 1, 0] : List ℚ).length = ([0, 1, 1, 0, 0] : List ℚ).length ∧
    1 ≤ ([0, 1, 1, 0, 0] : List ℚ).length ∧
    p_area [0, 1, 1, 0, 0] [0, 0, 1, 1, 0] = cyclic_area [0, 1, 1, 0, 0] [0, 0, 1, 1, 0] :=
  ⟨by decide, by decide,
    p_area_eq_cyclic_area_of_first_eq_last [0, 1, 1, 0, 0] [0, 0, 1, 1, 0]
      (by decide) (by decide) (by decide) (by decide)⟩

/-- C5 (counterexample): no precondition-violation error is raised on
malformed input — `winding_number_poly` on the empty (zero-vertex) ring
silently returns the numeric result `0`, and `distance_vector` on four
arrays of unequal length (`lon0 = [0]`, the others empty) still produces a
full-length output instead of rejecting the call. -/
theorem no_error_on_malformed_input_cex :
    winding_number_poly 0 0 [] = 0 ∧
    (distance_vector (TrigOps.mk id id (fun a _ => a) id) (1 : ℚ) [0] [] [] []).length = 1 := by
  constructor
  · simp [winding_number_poly]
  · simp [distance_vector]

/-- C5 (amended): the operations perform no input validation at all:
`winding_number_poly` over a zero-vertex ring returns winding number `0`
(a silent numeric result, not an error), and `distance_vector` performs no
length check — it simply iterates over the length of its first array,
whatever the other arrays' lengths are. -/
theorem no_input_validation (xt yt : ℚ) (ops : TrigOps ℚ) (d2r : ℚ)
    (lon0 lat0 lon1 lat1 : List ℚ) :
    winding_number_poly xt yt [] = 0 ∧
    (distance_vector ops d2r lon0 lat0 lon1 lat1).length = lon0.length := by
  constructor
  · simp [winding_number_poly]
  · simp [distance_vector]

/-- C6: the scalar `distance` equals the specification's haversine formula
`2·R·atan2(√a, √(1−a))` with `R = 6371315.0` and
`a = sin²((lat1−lat0)·D2R/2) + cos(lat0·D2R)·cos(lat1·D2R)·sin²((lon1−lon0)·D2R/2)`,
for every linearly ordered field, every interpretation of sin / cos /
atan2 / sqrt, and every value of the conversion constant `D2R` (the code's
64-bit constant for `π/180`). -/
theorem distance_matches_spec_formula {α : Type} [LinearOrderedField α]
    (ops : TrigOps α) (d2r lon0 lat0 lon1 lat1 : α) :
    distance ops d2r lon0 lat0 lon1 lat1 = distance_spec ops d2r lon0 lat0 lon1 lat1 := by
  have h05 : (0.5 : α) = 1 / 2 := by
    rw [show (0.5 : α) = ((0.5 : ℚ) : α) from (Rat.cast_ofScientific _ _ _).symm,
      show (0.5 : ℚ) = 1 / 2 by norm_num, Rat.cast_div, Rat.cast_one, Rat.cast_ofNat]
  simp only [distance, distance_spec, h05]
  ring_nf

/-- C7: `distance_vector` stores at slot `i` exactly the scalar
`distance` of the `i`-th input quadruple, and `distance_matrix` stores at
slot `(i, j)` the scalar `distance` pairing entry `i` of the first pair of
arrays with entry `j` of the second. -/
theorem distance_vector_matrix_elementwise {α : Type} [LinearOrderedField α]
    (ops : TrigOps α) (d2r : α) (lon0 lat0 lon1 lat1 : List α) (i j : ℕ)
    (ha : lat0.length = lon0.length) (hb : lon1.length = lon0.length)
    (hc : lat1.length = lon0.length) (hi : i < lon0.length) (hj : j < lon1.length) :
    (distance_vector ops d2r lon0 lat0 lon1 lat1).getD i 0 =
      distance ops d2r (lon0.getD i 0) (lat0.getD i 0) (lon1.getD i 0) (lat1.getD i 0) ∧
    ((distance_matrix ops d2r lon0 lat0 lon1 lat1).getD i []).getD j 0 =
      distance ops d2r (lon0.getD i 0) (lat0.getD i 0) (lon1.getD j 0) (lat1.getD j 0) := by
  constructor
  · simp [distance_vector, distance, List.getD_eq_getElem?_getD, List.getElem?_map,
      List.getElem?_range, hi]
  · simp [distance_matrix, distance, List.getD_eq_getElem?_getD, List.getElem?_map,
      List.getElem?_range, hi, hj]

/-- Witness for C7: a concrete one-element instance over `ℚ` with a
concrete interpretation of the trigonometric primitives. -/
theorem distance_vector_matrix_elementwise_witness :
    (0 : ℕ) < ([0] : List ℚ).length ∧
    ((distance_vector (TrigOps.mk id id (fun a _ => a) id) (1 : ℚ)
        [0] [0] [0] [1]).getD 0 0 =
      distance (TrigOps.mk id id (fun a _ => a) id) (1 : ℚ)
        (([0] : List ℚ).getD 0 0) (([0] : List ℚ).getD 0 0)
        (([0] : List ℚ).getD 0 0) (([1] : List ℚ).getD 0 0)) ∧
    (((distance_matrix (TrigOps.mk id id (fun a _ => a) id) (1 : ℚ)
        [0] [0] [0] [1]).getD 0 []).getD 0 0 =
      distance (TrigOps.mk id id (fun a _ => a) id) (1 : ℚ)
        (([0] : List ℚ).getD 0 0) (([0] : List ℚ).getD 0 0)
        (([0] : List ℚ).getD 0 0) (([1] : List ℚ).getD 0 0)) := by
  have h := distance_vector_matrix_elementwise (TrigOps.mk id id (fun a _ => a) id)
    (1 : ℚ) [0] [0] [0] [1] 0 0 rfl rfl rfl (by decide) (by decide)
  exact ⟨by decide, h.1, h.2⟩

/-- C8: the winding number computed by `winding_number_poly` is invariant
under cyclic rotation of the ring's starting vertex: rotating the vertex
list by any amount permutes the ring's directed edges and leaves the sum
of per-edge contributions unchanged. -/
theorem winding_number_poly_rotate (xt yt : ℚ) (l : List (ℚ × ℚ)) (k : ℕ) :
    winding_number_poly xt yt (l.rotate k) = winding_number_poly xt yt l := by
  rcases Nat.eq_zero_or_pos l.length with h0 | hpos
  · rw [List.length_eq_zero] at h0
    subst h0
    rw [List.rotate_nil]
  · rw [winding_number_poly_eq_sum_mod, winding_number_poly_eq_sum_mod, List.length_rotate]
    calc ∑ i ∈ Finset.range l.length,
          wn_edge xt yt ((l.rotate k).getD (i % l.length) (0, 0))
            ((l.rotate k).getD ((i + 1) % l.length) (0, 0))
        = ∑ i ∈ Finset.range l.length,
            (fun j => wn_edge xt yt (l.getD (j % l.length) (0, 0))
              (l.getD ((j + 1) % l.length) (0, 0))) ((i + k) % l.length) := by
          apply Finset.sum_congr rfl
          intro i hi
          rw [Finset.mem_range] at hi
          simp only []
          rw [getD_rotate l k _ _ (Nat.mod_lt _ hpos), getD_rotate l k _ _ (Nat.mod_lt _ hpos)]
          rw [Nat.mod_add_mod, Nat.mod_add_mod, Nat.mod_mod_of_dvd _ dvd_rfl, Nat.mod_add_mod]
          have hik : i + 1 + k = i + k + 1 := by omega
          rw [hik]
      _ = ∑ i ∈ Finset.range l.length,
            (fun j => wn_edge xt yt (l.getD (j % l.length) (0, 0))
              (l.getD ((j + 1) % l.length) (0, 0))) i :=
          sum_range_mod_shift l.length k
            (fun j => wn_edge xt yt (l.getD (j % l.length) (0, 0))
              (l.getD ((j + 1) % l.length) (0, 0)))
      _ = ∑ i ∈ Finset.range l.length,
            wn_edge xt yt (l.getD (i % l.length) (0, 0))
              (l.getD ((i + 1) % l.length) (0, 0)) := rfl

/-- C9: `index_from_nearest_path` returns the absent sentinel (`none`,
Python `None`) precisely when the addressed level has zero contours; for
a level with at least one contour it always returns a numeric index. -/
theorem index_from_nearest_path_none_iff_empty_level (level_index : ℕ)
    (l_i nb_c_per_l nb_pt_per_c indices_of_first_pts : List ℕ)
    (x_value y_value : List ℚ) (xpt ypt : ℚ)
    (h : level_index < nb_c_per_l.length) :
    index_from_nearest_path level_index l_i nb_c_per_l nb_pt_per_c indices_of_first_pts
        x_value y_value xpt ypt = none ↔ nb_c_per_l.getD level_index 0 = 0 := by
  by_cases h0 : nb_c_per_l.getD level_index 0 = 0
  · simp [index_from_nearest_path, h0]
  · simp [index_from_nearest_path, h0]

/-- Witness for C9: a collection whose single level has zero contours. -/
theorem index_from_nearest_path_none_iff_empty_level_witness :
    (0 : ℕ) < ([0] : List ℕ).length ∧
    (index_from_nearest_path 0 [0] [0] [] [] [] [] 0 0 = none ↔
      ([0] : List ℕ).getD 0 0 = 0) :=
  ⟨by decide,
    index_from_nearest_path_none_iff_empty_level 0 [0] [0] [] [] [] [] 0 0 (by decide)⟩

/-- C10: on a level with `nb_c_per_l[level] ≥ 1` contours the numeric
result of `index_from_nearest_path` is at most `nb_c_per_l[level] − 1`
(and, being a natural number, at least `0`): the ownership scan's early
return at position `i` yields `i − 1 − main_start < nb − 1` and the
fall-through yields exactly `nb − 1`. -/
theorem index_from_nearest_path_result_lt_nb_contour (level_index : ℕ)
    (l_i nb_c_per_l nb_pt_per_c indices_of_first_pts : List ℕ)
    (x_value y_value : List ℚ) (xpt ypt : ℚ)
    (h : level_index < nb_c_per_l.length)
    (hnb : 1 ≤ nb_c_per_l.getD level_index 0) :
    ∃ r, index_from_nearest_path level_index l_i nb_c_per_l nb_pt_per_c indices_of_first_pts
        x_value y_value xpt ypt = some r ∧ r ≤ nb_c_per_l.getD level_index 0 - 1 := by
  have h0 : ¬ nb_c_per_l.getD level_index 0 = 0 := by omega
  simp only [index_from_nearest_path]
  rw [if_neg h0]
  refine ⟨_, rfl, ?_⟩
  show ownership_scan indices_of_first_pts (l_i.getD level_index 0)
    (l_i.getD level_index 0 + nb_c_per_l.getD level_index 0) _ ≤ _
  exact ownership_scan_lt _ _ _ _ hnb

/-- Witness for C10: the two-contour level of the C1 analysis; the result
is `1 ≤ 2 − 1`. -/
theorem index_from_nearest_path_result_lt_nb_contour_witness :
    (0 : ℕ) < ([2] : List ℕ).length ∧ 1 ≤ ([2] : List ℕ).getD 0 0 ∧
    ∃ r, index_from_nearest_path 0 [0] [2] [1, 1] [0, 1] [0, 100] [1, 0] 0 0 = some r ∧
      r ≤ ([2] : List ℕ).getD 0 0 - 1 :=
  ⟨by decide, by decide,
    index_from_nearest_path_result_lt_nb_contour 0 [0] [2] [1, 1] [0, 1] [0, 100] [1, 0] 0 0
      (by decide) (by decide)⟩

end EddyKernel
